import Mathlib

/-!
Shallow embedding of `vimtimetap.py`, the command-line summarizer for the
Vim TimeTap time-tracking plugin, together with proofs about the claims of
its specification.

Modelling conventions:
* Python strings are embedded as `List Char` (called `Str` below).
* A Python dict mapping strings to ints is embedded as an insertion-ordered
  association list `List (Str × Nat)`; Python dict insertion appends a new
  key at the end and updates an existing key in place, which is what
  `addSeconds` below does.
* Reading a log file is embedded by passing the parsed file contents as an
  `Option (List (Str × Nat))` value: `none` models an `IOError` on `open`
  (the file is absent), `some records` models a successfully read file
  whose lines parsed to the given (path, seconds) records.  The JSON line
  parsing itself (`json.loads` with single-quote replacement, the
  single-key assertion, and the lookup of the "total" field) is standard
  library code whose successful result is exactly such a record.
* Calls into the Python standard library (`os.path.basename`,
  `os.path.splitext`, `os.path.split`, `re.match`, `datetime`,
  `strftime`) are embedded by definitions that follow the documented
  CPython semantics of those functions; each such definition carries a
  comment naming the function it models.
-/

namespace VimTimeTap

/-- Embedded Python string: a list of characters. -/
abbrev Str := List Char

/-- Embedded Python dict from strings to integer second counts:
an insertion-ordered association list. -/
abbrev Dict := List (Str × Nat)

/-- The `DatabaseDisplayKey` enumeration from the source (lines 21-26). -/
inductive DatabaseDisplayKey where
  | DATE
  | PATH
  | TREE
  | FILENAME
  | FILETYPE
deriving DecidableEq

/-- First value stored under key `k`, if any: models a Python dict lookup
`d[k]` returning a value (`none` models a raised `KeyError`). -/
def lookupSeconds (d : Dict) (k : Str) : Option Nat :=
  (d.find? (fun kv => kv.1 == k)).map (fun kv => kv.2)

/-- Lookup with default 0: the seconds a dict associates to a key, where an
absent key counts as zero seconds. -/
def lookupSecondsD (d : Dict) (k : Str) : Nat :=
  (lookupSeconds d k).getD 0

/-- The accumulation statement of `populate_database_dict` (source lines
305-308): `database_dict[filetitle] += seconds` with a `KeyError` fallback
`database_dict[filetitle] = seconds`.  An existing key is incremented in
place, a new key is appended at the end. -/
def addSeconds (d : Dict) (k : Str) (v : Nat) : Dict :=
  match d with
  | [] => [(k, v)]
  | kv :: rest => if kv.1 = k then (kv.1, kv.2 + v) :: rest else kv :: addSeconds rest k v

/-! ### Embeddings of `os.path` helpers (posixpath semantics) -/

/-- Models Python `p.rfind(c)`: index of the last occurrence of `c` in
`p`, or `-1` when `c` does not occur. -/
def rfind (p : Str) (c : Char) : Int :=
  match p.reverse.findIdx? (fun a => a == c) with
  | some i => (p.length : Int) - 1 - i
  | none => -1

/-- Models `os.path.basename(p)` on posix: `p[p.rfind(sep)+1:]`, the part
of the path after the last slash. -/
def basename (p : Str) : Str :=
  p.drop (rfind p '/' + 1).toNat

/-- Models `os.path.splitext(p)` on posix (`genericpath._splitext`): split
at the last dot provided it lies after the last slash and at least one
non-dot character of the final component precedes it (so dotfiles such as
`.bashrc` have no extension). -/
def splitext (p : Str) : Str × Str :=
  let sepIndex := rfind p '/'
  let dotIndex := rfind p '.'
  if sepIndex < dotIndex then
    let filenameIndex := (sepIndex + 1).toNat
    let dotIdx := dotIndex.toNat
    if ((p.drop filenameIndex).take (dotIdx - filenameIndex)).all (fun c => c == '.') then
      (p, [])
    else
      (p.take dotIdx, p.drop dotIdx)
  else (p, [])

/-- Models Python `head.rstrip(sep)`: remove trailing slashes. -/
def rstripSlash (p : Str) : Str :=
  (p.reverse.dropWhile (fun c => c == '/')).reverse

/-- Models `os.path.split(p)` on posix: split after the last slash, then
strip trailing slashes from the head unless the head is empty or consists
only of slashes. -/
def posixSplit (p : Str) : Str × Str :=
  let i := (rfind p '/' + 1).toNat
  let head := p.take i
  let tail := p.drop i
  let head2 := if head ≠ [] ∧ ¬ (head.all (fun c => c == '/')) then rstripSlash head else head
  (head2, tail)

/-- The `_parse_filetype` function (source lines 329-334): the extension
prefixed by a star when present, otherwise the basename, otherwise the
literal string OTHER. -/
def parse_filetype (path : Str) : Str :=
  let extension := (splitext path).2
  let extension2 := if extension ≠ [] then '*' :: extension else basename path
  if extension2 ≠ [] then extension2 else "OTHER".toList

/-! ### Embedding of `_parse_date` -/

/-- Models `int(s)` restricted to the plain decimal shape the scanned
filenames use: all characters are digits and the string is nonempty. -/
def parseIntDigits (cs : Str) : Option Nat :=
  if cs ≠ [] ∧ cs.all Char.isDigit then
    some (cs.foldl (fun n c => 10 * n + (c.toNat - 48)) 0)
  else none

/-- Month abbreviations produced by `strftime` with format directive b in
the C locale, for months 1 to 12.  The source only reaches this with a
valid month (an invalid one raises inside the `datetime` constructor, a
branch its own comment marks as unreachable), so out-of-range months are
mapped to the empty string here. -/
def monthAbbr (m : Nat) : Str :=
  match m with
  | 1 => "Jan".toList
  | 2 => "Feb".toList
  | 3 => "Mar".toList
  | 4 => "Apr".toList
  | 5 => "May".toList
  | 6 => "Jun".toList
  | 7 => "Jul".toList
  | 8 => "Aug".toList
  | 9 => "Sep".toList
  | 10 => "Oct".toList
  | 11 => "Nov".toList
  | 12 => "Dec".toList
  | _ => []

/-- Two-digit zero-padded decimal rendering, as produced by the numeric
`strftime` directives for month and day. -/
def pad2 (n : Nat) : Str :=
  if n < 10 then '0' :: Nat.toDigits 10 n else Nat.toDigits 10 n

/-- The `_parse_date` function (source lines 311-326): parse the first
eight characters of a TimeTap database filename as YYYYMMDD and format
them like `strftime` with format Y-space-b-space-d; if the integer parses
fail the source asserts the filename is `full.db` and returns ALL (this
embedding returns ALL on any parse failure; the assertion branch is only
ever reached with `full.db` from the enumerated filenames). -/
def parse_date (filename : Str) : Str :=
  match parseIntDigits (filename.take 4),
        parseIntDigits ((filename.drop 4).take 2),
        parseIntDigits ((filename.drop 6).take 2) with
  | some y, some m, some d =>
      Nat.toDigits 10 y ++ ' ' :: (monthAbbr m ++ ' ' :: pad2 d)
  | _, _, _ => "ALL".toList

/-! ### Regex model -/

/-- Abstract syntax of a compiled filter pattern, the model of a
successfully compiled `re` pattern. -/
inductive Regex where
  | emp : Regex
  | eps : Regex
  | chr : Char → Regex
  | dot : Regex
  | alt : Regex → Regex → Regex
  | cat : Regex → Regex → Regex
  | star : Regex → Regex

/-- Whether a regex accepts the empty string. -/
def nullable : Regex → Bool
  | .emp => false
  | .eps => true
  | .chr _ => false
  | .dot => false
  | .alt r1 r2 => nullable r1 || nullable r2
  | .cat r1 r2 => nullable r1 && nullable r2
  | .star _ => true

/-- Brzozowski derivative of a regex by one character. -/
def deriv : Regex → Char → Regex
  | .emp, _ => .emp
  | .eps, _ => .emp
  | .chr c, a => if a = c then .eps else .emp
  | .dot, _ => .eps
  | .alt r1 r2, a => .alt (deriv r1 a) (deriv r2 a)
  | .cat r1 r2, a =>
      if nullable r1 then .alt (.cat (deriv r1 a) r2) (deriv r2 a)
      else .cat (deriv r1 a) r2
  | .star r, a => .cat (deriv r a) (.star r)

/-- Models `re.compile(pattern).match(s) is not None`: the match is
anchored at the start of `s` but need not consume all of `s`, so it
succeeds exactly when some initial segment of `s` belongs to the language
of the pattern. -/
def reMatch (r : Regex) : Str → Bool
  | [] => nullable r
  | c :: cs => nullable r || reMatch (deriv r c) cs

/-! ### Accumulation (`populate_database_dict`) and filtering -/

/-- The key computation of `populate_database_dict` (source lines
296-303): the date string for DATE mode, the raw path for PATH and TREE
modes, the basename for FILENAME mode, and the filetype in the remaining
(default) FILETYPE mode. -/
def projectKey (key_type : DatabaseDisplayKey) (database_filename path : Str) : Str :=
  match key_type with
  | .DATE => parse_date database_filename
  | .PATH => path
  | .TREE => path
  | .FILENAME => basename path
  | .FILETYPE => parse_filetype path

/-- The `populate_database_dict` function (source lines 246-308).  The
file contents argument carries the parsed records of the named file, with
`none` for an unreadable file (the `IOError` branch at lines 275-279,
which returns leaving the dict untouched).  Each record adds its seconds
to the running total of its projected key. -/
def populate_database_dict (database_filename : Str)
    (contents : Option (List (Str × Nat))) (database_dict : Dict)
    (key_type : DatabaseDisplayKey) : Dict :=
  match contents with
  | none => database_dict
  | some data =>
      data.foldl
        (fun d r => addSeconds d (projectKey key_type database_filename r.1) r.2)
        database_dict

/-- One scanned file: its name paired with its contents (`none` when the
file is absent). -/
abbrev ScannedFile := Str × Option (List (Str × Nat))

/-- The accumulation loop of `main` (source lines 83-84) and of
`check_database` (lines 157-159): populate one dict from a sequence of
scanned files. -/
def scanFiles (files : List ScannedFile) (key_type : DatabaseDisplayKey)
    (d0 : Dict) : Dict :=
  files.foldl (fun d f => populate_database_dict f.1 f.2 d key_type) d0

/-- The seconds that one scanned file contributes to one projected key:
zero for an absent file, otherwise the sum of the seconds of its records
whose path projects to that key. -/
def fileKeySum (database_filename : Str) (contents : Option (List (Str × Nat)))
    (key_type : DatabaseDisplayKey) (k : Str) : Nat :=
  match contents with
  | none => 0
  | some data =>
      (data.map (fun r =>
        if projectKey key_type database_filename r.1 = k then r.2 else 0)).sum

/-- The `filter_database_dict` function (source lines 337-360): collect
every key whose `re.match` against the pattern fails, then delete those
keys from the dict. -/
def filter_database_dict (database_dict : Dict) (r : Regex) : Dict :=
  let filetitles_to_delete :=
    (database_dict.map (fun kv => kv.1)).filter (fun k => !(reMatch r k))
  filetitles_to_delete.foldl
    (fun d k => d.filter (fun kv => kv.1 != k)) database_dict

/-! ### Dates and `generated_database_filenames` -/

/-- A calendar date, the embedding of a `datetime` value (the time-of-day
fields are always zero in this program). -/
structure Date where
  year : Nat
  month : Nat
  day : Nat
deriving DecidableEq

/-- Gregorian leap-year rule, as implemented by `datetime`. -/
def isLeapYear (y : Nat) : Bool :=
  (y % 4 == 0 && y % 100 != 0) || y % 400 == 0

/-- Number of days in a month of a given year. -/
def daysInMonth (y m : Nat) : Nat :=
  if m = 2 then (if isLeapYear y then 29 else 28)
  else if m = 4 ∨ m = 6 ∨ m = 9 ∨ m = 11 then 30
  else 31

/-- Models `date + timedelta(days=1)` on a valid date. -/
def nextDay (d : Date) : Date :=
  if d.day < daysInMonth d.year d.month then ⟨d.year, d.month, d.day + 1⟩
  else if d.month < 12 then ⟨d.year, d.month + 1, 1⟩
  else ⟨d.year + 1, 1, 1⟩

/-- Days in all years strictly before year `y` (proleptic Gregorian). -/
def daysBeforeYear (y : Nat) : Nat :=
  365 * (y - 1) + (y - 1) / 4 - (y - 1) / 100 + (y - 1) / 400

/-- Days in all months of year `y` strictly before month `m`. -/
def daysBeforeMonth (y m : Nat) : Nat :=
  (List.range (m - 1)).foldl (fun acc i => acc + daysInMonth y (i + 1)) 0

/-- Ordinal day number of a date; the difference of two ordinals is the
`timedelta` day count between the dates. -/
def dateOrd (d : Date) : Nat :=
  daysBeforeYear d.year + daysBeforeMonth d.year d.month + d.day

/-- Models `datetime` comparison `d1 < d2`: lexicographic on year, month,
day (the time-of-day fields are equal). -/
def dateLtB (d1 d2 : Date) : Bool :=
  d1.year < d2.year ||
    (d1.year == d2.year &&
      (d1.month < d2.month || (d1.month == d2.month && d1.day < d2.day)))

/-- The `_equal_dates` function (source lines 472-474): it compares the
two dates by equality of their `strftime` x-directive renderings, which in
the C locale CPython runs under is month slash day slash TWO-DIGIT year;
two such zero-padded strings are equal exactly when the months, the days,
and the years reduced modulo 100 agree.  Note the year is compared only
modulo 100. -/
def equal_dates (d1 d2 : Date) : Bool :=
  d1.month == d2.month && d1.day == d2.day && d1.year % 100 == d2.year % 100

/-- Rendering of `strftime` with the format Y m d used for database
filenames (source line 234): four-plus-digit year, two-digit month and
day, followed by the `.db` suffix. -/
def databaseFilename (d : Date) : Str :=
  Nat.toDigits 10 d.year ++ pad2 d.month ++ pad2 d.day ++ ".db".toList

/-- The while loop of `generated_database_filenames` (source lines
232-240): append the filename for the running date until `_equal_dates`
says the running date equals the end date, then append one final filename.
The fuel argument bounds the number of iterations; it is instantiated with
the exact day distance between the two dates, which for valid dates is an
upper bound on the trip count of the source loop (the loop stops at the
first `_equal_dates` hit, never later than that distance). -/
def genLoop : Nat → Date → Date → List Str
  | 0, s, _ => [databaseFilename s]
  | n + 1, s, e =>
      if equal_dates s e then [databaseFilename s]
      else databaseFilename s :: genLoop n (nextDay s) e

/-- The `generated_database_filenames` function (source lines 192-243),
with the end date always supplied (as `main` always does; the
default-to-today branch is real-clock behaviour outside this model): the
full database alone when the start date is `None`, the empty list when the
end date precedes the start date, and otherwise the filenames produced by
the date-stepping loop. -/
def generated_database_filenames (start_date : Option Date) (end_date : Date) :
    List Str :=
  match start_date with
  | none => ["full.db".toList]
  | some s =>
      if dateLtB end_date s then []
      else genLoop (dateOrd end_date - dateOrd s) s end_date

/-! ### The path trie of `_print_database_as_tree` -/

/-- The `TrieNode` class (source lines 29-33): an accumulated seconds
value plus an insertion-ordered child map from path segment to child. -/
inductive TrieNode where
  | mk : Nat → List (Str × TrieNode) → TrieNode

/-- Accumulated seconds of a trie node. -/
def TrieNode.value : TrieNode → Nat
  | .mk v _ => v

/-- Child map of a trie node. -/
def TrieNode.goto : TrieNode → List (Str × TrieNode)
  | .mk _ g => g

/-- Child lookup `node.goto[directory]`, `none` for a `KeyError`. -/
def childFind (cs : List (Str × TrieNode)) (k : Str) : Option TrieNode :=
  (cs.find? (fun kv => kv.1 == k)).map (fun kv => kv.2)

/-- In-place child replacement `node.goto[directory] = n` for an existing
key: the entry keeps its position, its value is replaced. -/
def childUpdate (cs : List (Str × TrieNode)) (k : Str) (n : TrieNode) :
    List (Str × TrieNode) :=
  cs.map (fun kv => if kv.1 == k then (kv.1, n) else kv)

/-- The chain of fresh nodes the `except KeyError` arm of the insertion
loop creates once a segment is missing: every node on the rest of the path
is created as `TrieNode(raw_seconds)` and then receives its child. -/
def buildChain : List Str → Nat → TrieNode
  | [], s => .mk s []
  | d :: rest, s => .mk s [(d, buildChain rest s)]

/-- The body of the insertion loop of `_print_database_as_tree` (source
lines 485-491) below the root: walk segment by segment, adding the seconds
to each existing node on the way and creating fresh nodes (via
`buildChain`) from the first missing segment on. -/
def insertChildren : List (Str × TrieNode) → List Str → Nat → List (Str × TrieNode)
  | cs, [], _ => cs
  | cs, d :: rest, s =>
      match childFind cs d with
      | some c => childUpdate cs d (.mk (c.value + s) (insertChildren c.goto rest s))
      | none => cs ++ [(d, buildChain rest s)]

/-- One insertion of `_print_database_as_tree` (source lines 483-491):
the root itself receives the seconds (line 484), then the loop walks the
segment list. -/
def trieInsert (t : TrieNode) (segs : List Str) (s : Nat) : TrieNode :=
  .mk (t.value + s) (insertChildren t.goto segs s)

/-- Value of the node addressed by a segment sequence from the root, with
zero for an address that has no node. -/
def nodeValue : TrieNode → List Str → Nat
  | t, [] => t.value
  | t, a :: as =>
      match childFind t.goto a with
      | some c => nodeValue c as
      | none => 0

/-! ### `os.path.split` walking of `_directories_in_path` -/

theorem posixSplit_length (p : Str) :
    (posixSplit p).1.length + (posixSplit p).2.length ≤ p.length := by
  unfold posixSplit
  set i := (rfind p '/' + 1).toNat with hi
  simp only
  have htake : (p.take i).length = min i p.length := List.length_take i p
  have hdrop : (p.drop i).length = p.length - i := List.length_drop i p
  have hstrip : (rstripSlash (p.take i)).length ≤ (p.take i).length := by
    unfold rstripSlash
    calc ((p.take i).reverse.dropWhile (fun c => c == '/')).reverse.length
        = ((p.take i).reverse.dropWhile (fun c => c == '/')).length := by
          exact List.length_reverse _
      _ ≤ (p.take i).reverse.length := ((p.take i).reverse.dropWhile_sublist _).length_le
      _ = (p.take i).length := List.length_reverse _
  by_cases h : p.take i ≠ [] ∧ ¬ ((p.take i).all (fun c => c == '/'))
  · simp only [if_pos h]
    omega
  · simp only [if_neg h]
    omega

/-- The while loop of `_directories_in_path` (source lines 535-550),
written head-first: once the tail is empty the head (the root directory)
ends the walk; otherwise the tail is the most deeply nested segment and is
placed last.  The source collects tails leaf-first and reverses at the
end; this recursion produces the reversed (root-first) order directly. -/
def directoriesAux (head tail : Str) : List Str :=
  if tail = [] then [head]
  else directoriesAux (posixSplit head).1 (posixSplit head).2 ++ [tail]
termination_by 2 * head.length + tail.length
decreasing_by
  have h := posixSplit_length head
  have htail : 0 < tail.length := List.length_pos.mpr (by assumption)
  omega

/-- The `_directories_in_path` function (source lines 535-550): the
ordered segment sequence of a path from the root directory to the leaf. -/
def directories_in_path (path : Str) : List Str :=
  directoriesAux (posixSplit path).1 (posixSplit path).2

/-- The trie-building loop of `_print_database_as_tree` (source lines
479-491): fold every (path, seconds) entry into an initially empty trie
rooted at `TrieNode(0)`. -/
def build_path_trie (database : List (Str × Nat)) : TrieNode :=
  database.foldl (fun t e => trieInsert t (directories_in_path e.1) e.2) (.mk 0 [])

/-! ### `check_database` -/

/-- One joined entry of `check_database`: a path key together with its
by-date total and its full-database total. -/
abbrev JoinedEntry := Str × Nat × Nat

/-- The second joining loop of `check_database` (source lines 171-177):
for a key already joined, overwrite the full-database slot; for a fresh
key, append it with a zero by-date slot. -/
def joinStep (j : List JoinedEntry) (kv : Str × Nat) : List JoinedEntry :=
  if (j.find? (fun x => x.1 == kv.1)).isSome then
    j.map (fun x => if x.1 == kv.1 then (x.1, x.2.1, kv.2) else x)
  else j ++ [(kv.1, 0, kv.2)]

/-- The joining phase of `check_database` (source lines 166-177): seed the
joined dict from the by-date dict with zero full-database slots, then fold
the full-database dict in. -/
def joinTimes (by_date_time_per_file full_time_per_file : Dict) : List JoinedEntry :=
  full_time_per_file.foldl joinStep
    (by_date_time_per_file.map (fun kv => (kv.1, kv.2, 0)))

/-- Lookup of a joined entry by key: the (by-date, full) pair of totals
the joined dict associates to a path key, if any. -/
def tripleLookup (j : List JoinedEntry) (k : Str) : Option (Nat × Nat) :=
  (j.find? (fun x => x.1 == k)).map (fun x => x.2)

/-- Lexicographic string order on character code points, the order Python
`sorted` uses on the string keys. -/
def strLe : Str → Str → Bool
  | [], _ => true
  | _ :: _, [] => false
  | a :: as, b :: bs => if a < b then true else if b < a then false else strLe as bs

/-- The reporting phase of `check_database` (source lines 180-186): keep
the joined entries whose two totals differ and sort them by key. -/
def check_database_entries (by_date_time_per_file full_time_per_file : Dict) :
    List JoinedEntry :=
  ((joinTimes by_date_time_per_file full_time_per_file).filter
      (fun x => x.2.1 != x.2.2)).mergeSort (fun x y => strLe x.1 y.1)

/-- The total drift printed by `check_database` (source lines 180-188):
the sum of the absolute differences over the reported entries. -/
def check_database_total (by_date_time_per_file full_time_per_file : Dict) : Nat :=
  ((check_database_entries by_date_time_per_file full_time_per_file).map
    (fun x => ((x.2.2 : Int) - (x.2.1 : Int)).natAbs)).sum

/-! ### The date-mode row loop of `main` -/

/-- One iteration of the loop of `main` in date display mode (source lines
83-92): populate the dict from the file, then try to append the row
`(date, time_per_type[date])`, swallowing a `KeyError` (modelled by the
`none` branch, which appends nothing). -/
def dateRowsStep (st : Dict × List (Str × Nat)) (f : ScannedFile) :
    Dict × List (Str × Nat) :=
  let d := populate_database_dict f.1 f.2 st.1 .DATE
  match lookupSeconds d (parse_date f.1) with
  | some t => (d, st.2 ++ [(parse_date f.1, t)])
  | none => (d, st.2)

/-- The whole date-mode loop of `main` over the enumerated files. -/
def buildDateRows (files : List ScannedFile) (st : Dict × List (Str × Nat)) :
    Dict × List (Str × Nat) :=
  files.foldl dateRowsStep st

/-! ### Definitions written from the claims, for comparison -/

/-- Claim C8 read literally: the star-prefixed extension when the path has
an extension, otherwise the full basename, with no further fallback. -/
def claimFiletype (path : Str) : Str :=
  if (splitext path).2 ≠ [] then '*' :: (splitext path).2 else basename path

/-- Extension of a final path component described in the vocabulary of the
spec: the suffix starting at the last dot, provided the component still
contains a dot once its leading dots are stripped (so a dotfile name has
no extension). -/
def specExtension (b : Str) : Str :=
  if (b.dropWhile (fun c => c == '.')).contains '.' then
    '.' :: (b.reverse.takeWhile (fun c => c != '.')).reverse
  else []

/-! ## Dictionary accumulation lemmas -/

theorem lookupSecondsD_nil (k : Str) : lookupSecondsD [] k = 0 := rfl

theorem lookupSeconds_cons (kv : Str × Nat) (rest : Dict) (k : Str) :
    lookupSeconds (kv :: rest) k
      = if kv.1 = k then some kv.2 else lookupSeconds rest k := by
  by_cases h : kv.1 = k
  · simp [lookupSeconds, List.find?_cons, h]
  · have h2 : (kv.1 == k) = false := by
      simpa using h
    simp [lookupSeconds, List.find?_cons, h2, h]

theorem lookupSecondsD_cons (kv : Str × Nat) (rest : Dict) (k : Str) :
    lookupSecondsD (kv :: rest) k
      = if kv.1 = k then kv.2 else lookupSecondsD rest k := by
  by_cases h : kv.1 = k <;> simp [lookupSecondsD, lookupSeconds_cons, h]

theorem addSeconds_cons (kv : Str × Nat) (rest : Dict) (k : Str) (v : Nat) :
    addSeconds (kv :: rest) k v
      = if kv.1 = k then (kv.1, kv.2 + v) :: rest else kv :: addSeconds rest k v := rfl

theorem lookupSecondsD_addSeconds (d : Dict) (k k2 : Str) (v : Nat) :
    lookupSecondsD (addSeconds d k v) k2
      = lookupSecondsD d k2 + (if k2 = k then v else 0) := by
  induction d with
  | nil =>
      by_cases h : k2 = k
      · simp [addSeconds, lookupSecondsD_cons, lookupSecondsD_nil, h]
      · have h2 : ¬ k = k2 := fun hh => h hh.symm
        simp [addSeconds, lookupSecondsD_cons, lookupSecondsD_nil, h, h2]
  | cons kv rest ih =>
      rw [addSeconds_cons]
      by_cases h1 : kv.1 = k
      · subst h1
        by_cases h2 : kv.1 = k2
        · simp [lookupSecondsD_cons, h2]
        · have h3 : ¬ k2 = kv.1 := fun hh => h2 hh.symm
          simp [lookupSecondsD_cons, h2, h3]
      · by_cases h2 : kv.1 = k2
        · have h3 : ¬ k2 = k := fun hh => h1 (h2.trans hh)
          simp [lookupSecondsD_cons, h1, h2, h3]
        · simp [lookupSecondsD_cons, h1, h2, ih]

theorem lookupSecondsD_foldl_add (data : List (Str × Nat)) (f : Str → Str)
    (d : Dict) (k : Str) :
    lookupSecondsD (data.foldl (fun d2 r => addSeconds d2 (f r.1) r.2) d) k
      = lookupSecondsD d k
        + (data.map (fun r => if f r.1 = k then r.2 else 0)).sum := by
  induction data generalizing d with
  | nil => simp
  | cons r rs ih =>
      rw [List.foldl_cons, ih, lookupSecondsD_addSeconds]
      by_cases h : f r.1 = k <;> simp [h, eq_comm] <;> omega

theorem lookupSecondsD_populate (fname : Str) (c : Option (List (Str × Nat)))
    (d : Dict) (kt : DatabaseDisplayKey) (k : Str) :
    lookupSecondsD (populate_database_dict fname c d kt) k
      = lookupSecondsD d k + fileKeySum fname c kt k := by
  cases c with
  | none => simp [populate_database_dict, fileKeySum]
  | some data =>
      simpa [populate_database_dict, fileKeySum] using
        lookupSecondsD_foldl_add data (projectKey kt fname) d k

theorem lookupSecondsD_scanFiles (files : List ScannedFile)
    (kt : DatabaseDisplayKey) (d : Dict) (k : Str) :
    lookupSecondsD (scanFiles files kt d) k
      = lookupSecondsD d k + (files.map (fun f => fileKeySum f.1 f.2 kt k)).sum := by
  induction files generalizing d with
  | nil => simp [scanFiles]
  | cons f fs ih =>
      simp only [scanFiles, List.foldl_cons, List.map_cons, List.sum_cons] at *
      rw [ih, lookupSecondsD_populate]
      omega

/-- C1: for every sequence of scanned log files and every projection mode,
after accumulation the seconds stored for a key equal the arithmetic sum of
the seconds of all records across all scanned files whose path projects to
that key; and one `populate_database_dict` call over any prior dictionary
adds its records on top of the stored totals instead of overwriting them. -/
theorem populate_database_dict_accumulates :
    (∀ (files : List ScannedFile) (key_type : DatabaseDisplayKey) (k : Str),
      lookupSecondsD (scanFiles files key_type []) k
        = (files.map (fun f => fileKeySum f.1 f.2 key_type k)).sum)
    ∧ (∀ (fname : Str) (c : Option (List (Str × Nat))) (d : Dict)
        (key_type : DatabaseDisplayKey) (k : Str),
      lookupSecondsD (populate_database_dict fname c d key_type) k
        = lookupSecondsD d k + fileKeySum fname c key_type k) := by
  constructor
  · intro files key_type k
    simpa [lookupSecondsD_nil] using lookupSecondsD_scanFiles files key_type [] k
  · exact lookupSecondsD_populate

/-- C6: accumulating an absent (unreadable) log file is a no-op for every
projection mode and every prior dictionary state, both for the single call
and inside any scan sequence, and no error is signalled (the embedding is
total). -/
theorem populate_database_dict_absent_noop :
    (∀ (fname : Str) (d : Dict) (key_type : DatabaseDisplayKey),
      populate_database_dict fname none d key_type = d)
    ∧ (∀ (pre suf : List ScannedFile) (fname : Str) (d : Dict)
        (key_type : DatabaseDisplayKey),
      scanFiles (pre ++ (fname, none) :: suf) key_type d
        = scanFiles (pre ++ suf) key_type d) := by
  constructor
  · intro fname d key_type
    rfl
  · intro pre suf fname d key_type
    simp [scanFiles, List.foldl_append, List.foldl_cons, populate_database_dict]

/-! ## Filtering lemmas -/

theorem foldl_deleteKeys (ks : List Str) (d : Dict) :
    ks.foldl (fun d2 k => d2.filter (fun kv => kv.1 != k)) d
      = d.filter (fun kv => !(ks.contains kv.1)) := by
  induction ks generalizing d with
  | nil => simp
  | cons k ks ih =>
      rw [List.foldl_cons, ih, List.filter_filter]
      apply List.filter_congr
      intro x _
      by_cases hxk : x.1 = k <;>
        simp [List.contains_cons, Bool.not_or, bne, Bool.and_comm, hxk]

theorem filter_database_dict_eq_filter (d : Dict) (r : Regex) :
    filter_database_dict d r = d.filter (fun kv => reMatch r kv.1) := by
  unfold filter_database_dict
  rw [foldl_deleteKeys]
  apply List.filter_congr
  intro kv hmem
  by_cases h : reMatch r kv.1
  · have hnot : kv.1 ∉ (d.map (fun kv => kv.1)).filter (fun k => !(reMatch r k)) := by
      simp [List.mem_filter, h]
    have hc : ((d.map (fun kv => kv.1)).filter
        (fun k => !(reMatch r k))).contains kv.1 = false := by
      simpa using hnot
    simp [h, hc]
  · have hin : kv.1 ∈ (d.map (fun kv => kv.1)).filter (fun k => !(reMatch r k)) :=
      List.mem_filter.mpr ⟨List.mem_map.mpr ⟨kv, hmem, rfl⟩, by simp [h]⟩
    have hc : ((d.map (fun kv => kv.1)).filter
        (fun k => !(reMatch r k))).contains kv.1 = true := by
      simpa using hin
    have hr : reMatch r kv.1 = false := Bool.of_not_eq_true h
    simp [hc, hr]
    exact ⟨kv.2, by simpa using hmem⟩

theorem find?_filter_of_pred {α : Type} (p q : α → Bool) (l : List α)
    (h : ∀ x, p x = true → q x = true) :
    (l.filter q).find? p = l.find? p := by
  induction l with
  | nil => simp
  | cons a l ih =>
      by_cases ha : q a = true
      · rw [List.filter_cons_of_pos ha, List.find?_cons, List.find?_cons]
        cases hp : p a <;> simp [hp, ih]
      · have hpa : p a = false := by
          cases hp : p a
          · rfl
          · exact absurd (h a hp) (by simpa using ha)
        rw [List.filter_cons_of_neg (by simpa using ha), List.find?_cons, hpa]
        simp [ih]

/-- C5: filtering retains an entry exactly when the pattern matches its key
from the start (prefix-anchored match, modelled by `reMatch`), and removes
every other entry. -/
theorem filter_database_dict_retains_iff (d : Dict) (r : Regex) (k : Str) (v : Nat) :
    (k, v) ∈ filter_database_dict d r ↔ ((k, v) ∈ d ∧ reMatch r k = true) := by
  rw [filter_database_dict_eq_filter]
  simp [List.mem_filter]

/-- Witness for C5 at a concrete dict, pattern, and entry. -/
theorem filter_database_dict_retains_iff_witness :
    (['a'], 3) ∈ filter_database_dict [(['a'], 3), (['b'], 4)] (Regex.chr 'a') := by
  exact (filter_database_dict_retains_iff [(['a'], 3), (['b'], 4)]
    (Regex.chr 'a') ['a'] 3).mpr ⟨by decide, by decide⟩

/-- C7: filtering an already-filtered dictionary again with the same
pattern changes nothing. -/
theorem filter_database_dict_idempotent (d : Dict) (r : Regex) :
    filter_database_dict (filter_database_dict d r) r = filter_database_dict d r := by
  rw [filter_database_dict_eq_filter, filter_database_dict_eq_filter,
    List.filter_filter]
  exact List.filter_congr (fun x _ => by cases h : reMatch r x.1 <;> simp [h])

/-- C10: the filtered dictionary is a sublist of the original (no entry is
added, surviving entries keep their order and values), and every retained
key still looks up to its original seconds. -/
theorem filter_database_dict_frame (d : Dict) (r : Regex) :
    (filter_database_dict d r).Sublist d
    ∧ ∀ k : Str, reMatch r k = true →
        lookupSeconds (filter_database_dict d r) k = lookupSeconds d k := by
  constructor
  · rw [filter_database_dict_eq_filter]
    exact List.filter_sublist d
  · intro k h
    rw [filter_database_dict_eq_filter]
    unfold lookupSeconds
    rw [find?_filter_of_pred]
    intro x hx
    have hxk : x.1 = k := by simpa using hx
    rw [hxk, h]

/-- Witness for C10 at a concrete dict, pattern, and key. -/
theorem filter_database_dict_frame_witness :
    (filter_database_dict [(['a'], 3), (['b'], 4)] (Regex.chr 'a')).Sublist
        [(['a'], 3), (['b'], 4)]
    ∧ lookupSeconds (filter_database_dict [(['a'], 3), (['b'], 4)] (Regex.chr 'a'))
        ['a'] = lookupSeconds [(['a'], 3), (['b'], 4)] ['a'] :=
  ⟨(filter_database_dict_frame [(['a'], 3), (['b'], 4)] (Regex.chr 'a')).1,
   (filter_database_dict_frame [(['a'], 3), (['b'], 4)] (Regex.chr 'a')).2
     ['a'] (by decide)⟩

/-! ## Path-trie lemmas -/

theorem childFind_nil (a : Str) : childFind [] a = none := rfl

theorem childFind_cons (kv : Str × TrieNode) (cs : List (Str × TrieNode)) (a : Str) :
    childFind (kv :: cs) a = if kv.1 = a then some kv.2 else childFind cs a := by
  by_cases h : kv.1 = a
  · simp [childFind, List.find?_cons, h]
  · have h2 : (kv.1 == a) = false := by simpa using h
    simp [childFind, List.find?_cons, h2, h]

theorem childUpdate_cons (kv : Str × TrieNode) (cs : List (Str × TrieNode))
    (k : Str) (n : TrieNode) :
    childUpdate (kv :: cs) k n
      = (if kv.1 = k then (kv.1, n) else kv) :: childUpdate cs k n := by
  by_cases h : kv.1 = k <;> simp [childUpdate, h]

theorem childFind_update_self (cs : List (Str × TrieNode)) (k : Str) (n : TrieNode)
    (c : TrieNode) (h : childFind cs k = some c) :
    childFind (childUpdate cs k n) k = some n := by
  induction cs with
  | nil => simp [childFind] at h
  | cons kv rest ih =>
      rw [childUpdate_cons]
      by_cases hk : kv.1 = k
      · rw [if_pos hk, childFind_cons]
        simp [hk]
      · rw [if_neg hk, childFind_cons, if_neg hk]
        rw [childFind_cons, if_neg hk] at h
        exact ih h

theorem childFind_update_other (cs : List (Str × TrieNode)) (k a : Str) (n : TrieNode)
    (h : a ≠ k) :
    childFind (childUpdate cs k n) a = childFind cs a := by
  induction cs with
  | nil => rfl
  | cons kv rest ih =>
      rw [childUpdate_cons, childFind_cons kv rest a]
      by_cases hk : kv.1 = k
      · have hka : ¬ kv.1 = a := fun hh => h (hh.symm.trans hk)
        rw [if_pos hk, childFind_cons, if_neg hka]
        simp only [if_neg hka]
        exact ih
      · rw [if_neg hk, childFind_cons]
        by_cases hva : kv.1 = a
        · simp [hva]
        · simp only [if_neg hva]
          exact ih

theorem childFind_append (cs cs2 : List (Str × TrieNode)) (a : Str) :
    childFind (cs ++ cs2) a = (childFind cs a).or (childFind cs2 a) := by
  unfold childFind
  rw [List.find?_append]
  cases List.find? (fun kv => kv.1 == a) cs <;> simp

theorem nodeValue_buildChain (as rest : List Str) (s : Nat) :
    nodeValue (buildChain rest s) as = if as.isPrefixOf rest then s else 0 := by
  induction as generalizing rest with
  | nil => cases rest <;> simp [buildChain, nodeValue, List.isPrefixOf, TrieNode.value]
  | cons a as2 ih =>
      cases rest with
      | nil => simp [buildChain, nodeValue, List.isPrefixOf, TrieNode.goto, childFind]
      | cons d r2 =>
          by_cases had : a = d
          · subst had
            simp [buildChain, nodeValue, TrieNode.goto, childFind, List.find?_cons,
              List.isPrefixOf, ih]
          · have had2 : (d == a) = false := by simpa using fun hh => had hh.symm
            have had3 : (a == d) = false := by simpa using had
            simp [buildChain, nodeValue, TrieNode.goto, childFind, List.find?_cons,
              List.isPrefixOf, had2, had3]

theorem nodeValue_nil (t : TrieNode) : nodeValue t [] = t.value := rfl

theorem nodeValue_cons (t : TrieNode) (a : Str) (as : List Str) :
    nodeValue t (a :: as)
      = match childFind t.goto a with
        | some c => nodeValue c as
        | none => 0 := rfl

theorem insertChildren_nil (cs : List (Str × TrieNode)) (s : Nat) :
    insertChildren cs [] s = cs := rfl

theorem insertChildren_cons (cs : List (Str × TrieNode)) (d : Str)
    (rest : List Str) (s : Nat) :
    insertChildren cs (d :: rest) s
      = match childFind cs d with
        | some c => childUpdate cs d (.mk (c.value + s) (insertChildren c.goto rest s))
        | none => cs ++ [(d, buildChain rest s)] := rfl

theorem trieInsert_value (t : TrieNode) (segs : List Str) (s : Nat) :
    (trieInsert t segs s).value = t.value + s := rfl

theorem trieInsert_goto (t : TrieNode) (segs : List Str) (s : Nat) :
    (trieInsert t segs s).goto = insertChildren t.goto segs s := rfl

theorem isPrefixOf_cons_cons (a d : Str) (as rest : List Str) :
    (a :: as).isPrefixOf (d :: rest) = ((a == d) && as.isPrefixOf rest) := by
  simp [List.isPrefixOf]

theorem nodeValue_trieInsert (t : TrieNode) (segs : List Str) (s : Nat)
    (addr : List Str) :
    nodeValue (trieInsert t segs s) addr
      = nodeValue t addr + (if addr.isPrefixOf segs then s else 0) := by
  induction addr generalizing t segs with
  | nil =>
      rw [nodeValue_nil, nodeValue_nil, trieInsert_value]
      simp [List.isPrefixOf]
  | cons a as ih =>
      rw [nodeValue_cons, nodeValue_cons, trieInsert_goto]
      cases segs with
      | nil =>
          rw [insertChildren_nil]
          simp [List.isPrefixOf]
      | cons d rest =>
          rw [insertChildren_cons, isPrefixOf_cons_cons]
          cases hf : childFind t.goto d with
          | some c =>
              dsimp only
              by_cases had : a = d
              · subst had
                rw [childFind_update_self t.goto a
                  (.mk (c.value + s) (insertChildren c.goto rest s)) c hf]
                dsimp only
                rw [show TrieNode.mk (c.value + s) (insertChildren c.goto rest s)
                    = trieInsert c rest s from rfl, ih, hf]
                simp
              · rw [childFind_update_other t.goto d a
                  (.mk (c.value + s) (insertChildren c.goto rest s)) had]
                have had2 : (a == d) = false := by simpa using had
                rw [had2]
                cases childFind t.goto a <;> simp
          | none =>
              dsimp only
              rw [childFind_append]
              by_cases had : a = d
              · subst had
                rw [hf]
                have h2 : childFind [(a, buildChain rest s)] a
                    = some (buildChain rest s) := by
                  rw [childFind_cons]
                  simp
                rw [h2]
                dsimp only [Option.or]
                rw [nodeValue_buildChain]
                simp
              · have had2 : (a == d) = false := by simpa using had
                have h2 : childFind [(d, buildChain rest s)] a = none := by
                  rw [childFind_cons, if_neg (fun hh => had hh.symm)]
                  rfl
                rw [h2, had2, Option.or_none]
                cases childFind t.goto a <;> simp

theorem nodeValue_empty (addr : List Str) : nodeValue (.mk 0 []) addr = 0 := by
  cases addr <;> simp [nodeValue, TrieNode.value, TrieNode.goto, childFind]

theorem nodeValue_build_aux (es : List (Str × Nat)) (t : TrieNode) (addr : List Str) :
    nodeValue (es.foldl (fun t2 e => trieInsert t2 (directories_in_path e.1) e.2) t) addr
      = nodeValue t addr
        + (es.map (fun e =>
            if addr.isPrefixOf (directories_in_path e.1) then e.2 else 0)).sum := by
  induction es generalizing t with
  | nil => simp
  | cons e es ih =>
      rw [List.foldl_cons, ih, nodeValue_trieInsert]
      simp [Nat.add_assoc]

/-- C2: in the trie built by `_print_database_as_tree`, every node's
stored value equals the sum of the seconds of all inserted entries whose
segment sequence passes through that node (the node address is a leading
segment run of the entry's segment sequence), and in particular the root's
value equals the grand total of all inserted seconds. -/
theorem build_path_trie_rollup (database : List (Str × Nat)) :
    (∀ addr : List Str, nodeValue (build_path_trie database) addr
      = (database.map (fun e =>
          if addr.isPrefixOf (directories_in_path e.1) then e.2 else 0)).sum)
    ∧ (build_path_trie database).value = (database.map (fun e => e.2)).sum := by
  have hmain : ∀ addr : List Str, nodeValue (build_path_trie database) addr
      = (database.map (fun e =>
          if addr.isPrefixOf (directories_in_path e.1) then e.2 else 0)).sum := by
    intro addr
    unfold build_path_trie
    rw [nodeValue_build_aux, nodeValue_empty]
    omega
  refine ⟨hmain, ?_⟩
  have hroot := hmain []
  simpa [nodeValue, TrieNode.value, List.isPrefixOf] using hroot

/-! ## Date-range enumeration: the two-digit-year defect -/

/-- C3 (divergence evidence): the range from 1917-05-05 to 2017-05-05 is a
valid range (the end does not precede the start) spanning 36525 days, so
the claim requires 36526 filenames, one per day; the function instead
returns the single filename of the start day, because `_equal_dates`
compares the two dates through their C-locale x-directive `strftime`
strings, whose year field has only two digits, making 1917-05-05 equal to
2017-05-05 on the very first loop test.  This contradicts the docstring of
`generated_database_filenames` (all dates from start to end inclusive) and
the comment of `_equal_dates` (equality based on years, months, and days). -/
theorem generated_database_filenames_century_bug :
    dateLtB ⟨2017, 5, 5⟩ ⟨1917, 5, 5⟩ = false
    ∧ dateOrd ⟨2017, 5, 5⟩ - dateOrd ⟨1917, 5, 5⟩ + 1 = 36526
    ∧ generated_database_filenames (some ⟨1917, 5, 5⟩) ⟨2017, 5, 5⟩
        = ["19170505.db".toList]
    ∧ (generated_database_filenames (some ⟨1917, 5, 5⟩) ⟨2017, 5, 5⟩).length = 1 := by
  refine ⟨by decide, by decide, ?_, ?_⟩
  · show generated_database_filenames (some ⟨1917, 5, 5⟩) ⟨2017, 5, 5⟩
      = ["19170505.db".toList]
    decide
  · decide

/-! ## Characterizing `rfind`, `basename`, and `splitext` -/

theorem exists_last_occurrence {c : Char} {p : Str} (h : c ∈ p) :
    ∃ u v, p = u ++ c :: v ∧ c ∉ v := by
  induction p with
  | nil => cases h
  | cons a rest ih =>
      by_cases hr : c ∈ rest
      · obtain ⟨u, v, rfl2, hv⟩ := ih hr
        exact ⟨a :: u, v, by rw [rfl2]; rfl, hv⟩
      · have hca : c = a := by
          rcases List.mem_cons.mp h with h1 | h1
          · exact h1
          · exact absurd h1 hr
        exact ⟨[], rest, by simp [hca], hr⟩

theorem rfind_eq_neg_one {p : Str} {c : Char} (h : c ∉ p) : rfind p c = -1 := by
  unfold rfind
  have hnone : p.reverse.findIdx? (fun a => a == c) = none := by
    rw [List.findIdx?_eq_none_iff]
    intro x hx
    have hxp : x ∈ p := List.mem_reverse.mp hx
    have : ¬ x = c := fun hh => h (hh ▸ hxp)
    simpa using this
  rw [hnone]

theorem rfind_last {u v : Str} {c : Char} (h : c ∉ v) :
    rfind (u ++ c :: v) c = u.length := by
  unfold rfind
  have hrev : (u ++ c :: v).reverse = v.reverse ++ c :: u.reverse := by
    rw [List.reverse_append, List.reverse_cons, List.append_assoc]
    rfl
  have hvnone : v.reverse.findIdx? (fun a => a == c) = none := by
    rw [List.findIdx?_eq_none_iff]
    intro x hx
    have hxp : x ∈ v := List.mem_reverse.mp hx
    have : ¬ x = c := fun hh => h (hh ▸ hxp)
    simpa using this
  have hcons : (c :: u.reverse).findIdx? (fun a => a == c) = some 0 := by
    rw [show ((c :: u.reverse).findIdx? (fun a => a == c))
        = ((c :: u.reverse).findIdx? (fun a => a == c) 0) from rfl]
    rw [List.findIdx?_cons]
    simp
  have hfind : (v.reverse ++ c :: u.reverse).findIdx? (fun a => a == c)
      = some v.length := by
    rw [List.findIdx?_append, hvnone, hcons]
    simp
  rw [hrev, hfind]
  have hlen : (u ++ c :: v).length = u.length + v.length + 1 := by
    simp [List.length_append]
    omega
  dsimp only
  rw [hlen]
  push_cast
  omega

theorem basename_no_slash {p : Str} (h : '/' ∉ p) : basename p = p := by
  unfold basename
  rw [rfind_eq_neg_one h]
  simp

theorem basename_decomp {d b : Str} (hb : '/' ∉ b) :
    basename (d ++ '/' :: b) = b := by
  unfold basename
  rw [rfind_last hb]
  have h1 : ((d.length : Int) + 1).toNat = (d ++ ['/']).length := by
    simp only [List.length_append, List.length_singleton]
    omega
  rw [h1, show d ++ '/' :: b = (d ++ ['/']) ++ b by simp, List.drop_left]

theorem dropWhile_dots_no_dot {l : Str} (h : '.' ∉ l) :
    l.dropWhile (fun c => c == '.') = l := by
  cases l with
  | nil => rfl
  | cons x xs =>
      have hx : ¬ x = '.' := fun hh => h (hh ▸ List.mem_cons_self x xs)
      rw [List.dropWhile_cons, if_neg (by simpa using hx)]

theorem dropWhile_dots_of_all {b1 b2 : Str} (hall : ∀ x ∈ b1, x = '.')
    (h2 : '.' ∉ b2) :
    (b1 ++ '.' :: b2).dropWhile (fun c => c == '.') = b2 := by
  induction b1 with
  | nil =>
      rw [List.nil_append, List.dropWhile_cons, if_pos (by simp)]
      exact dropWhile_dots_no_dot h2
  | cons a b1 ih =>
      have ha : a = '.' := hall a (List.mem_cons_self a b1)
      rw [List.cons_append, List.dropWhile_cons, if_pos (by simp [ha])]
      exact ih (fun x hx => hall x (List.mem_cons_of_mem a hx))

theorem contains_dot_of_not_all {b1 b2 : Str} (hnall : ¬ ∀ x ∈ b1, x = '.') :
    ((b1 ++ '.' :: b2).dropWhile (fun c => c == '.')).contains '.' = true := by
  have hne : b1.dropWhile (fun c => c == '.') ≠ [] := by
    rw [Ne, List.dropWhile_eq_nil_iff]
    intro hall
    exact hnall (fun x hx => by simpa using hall x hx)
  rw [List.dropWhile_append,
    if_neg (by simpa [List.isEmpty_iff] using hne)]
  simp

theorem takeWhile_ext {b1 b2 : Str} (h2 : '.' ∉ b2) :
    ((b1 ++ '.' :: b2).reverse.takeWhile (fun c => c != '.')).reverse = b2 := by
  have hrev : (b1 ++ '.' :: b2).reverse = b2.reverse ++ '.' :: b1.reverse := by
    rw [List.reverse_append, List.reverse_cons, List.append_assoc]
    rfl
  have hself : b2.reverse.takeWhile (fun c => c != '.') = b2.reverse := by
    rw [List.takeWhile_eq_self_iff]
    intro x hx
    have hxp : x ∈ b2 := List.mem_reverse.mp hx
    have : ¬ x = '.' := fun hh => h2 (hh ▸ hxp)
    simpa using this
  rw [hrev, List.takeWhile_append, if_pos (by rw [hself]),
    List.takeWhile_cons, if_neg (by simp)]
  simp

theorem specExtension_with_dot {b1 b2 : Str} (h2 : '.' ∉ b2) :
    specExtension (b1 ++ '.' :: b2)
      = if ∀ x ∈ b1, x = '.' then [] else '.' :: b2 := by
  unfold specExtension
  by_cases hall : ∀ x ∈ b1, x = '.'
  · rw [if_pos hall, dropWhile_dots_of_all hall h2]
    have hc : b2.contains '.' = false := by simpa using h2
    rw [hc]
    simp
  · rw [if_neg hall, contains_dot_of_not_all hall, if_pos rfl]
    rw [takeWhile_ext h2]

theorem specExtension_no_dot {b : Str} (h : '.' ∉ b) : specExtension b = [] := by
  unfold specExtension
  have hsub : '.' ∉ b.dropWhile (fun c => c == '.') :=
    fun hm => h ((List.dropWhile_sublist (l := b) (fun c => c == '.')).subset hm)
  have hc : (b.dropWhile (fun c => c == '.')).contains '.' = false := by
    simpa using hsub
  rw [hc]
  simp

theorem splitext_snd_decomp (d b : Str) (hb : '/' ∉ b) :
    (splitext (d ++ '/' :: b)).2 = specExtension b := by
  by_cases hdot : '.' ∈ b
  · obtain ⟨b1, b2, rfl, h2⟩ := exists_last_occurrence hdot
    have hsep : rfind (d ++ '/' :: (b1 ++ '.' :: b2)) '/' = d.length := rfind_last hb
    have hp : d ++ '/' :: (b1 ++ '.' :: b2) = (d ++ '/' :: b1) ++ '.' :: b2 := by
      simp
    have hdotIdx : rfind (d ++ '/' :: (b1 ++ '.' :: b2)) '.'
        = (d ++ '/' :: b1).length := by
      rw [hp]
      exact rfind_last h2
    have hlen1 : (d ++ '/' :: b1).length = d.length + 1 + b1.length := by
      simp [List.length_append]
      omega
    have hfi : ((d.length : Int) + 1).toNat = d.length + 1 := by omega
    have hdn : ((((d.length + 1 + b1.length : Nat)) : Int)).toNat
        = d.length + 1 + b1.length := by omega
    have hdrop : (d ++ '/' :: (b1 ++ '.' :: b2)).drop (d.length + 1)
        = b1 ++ '.' :: b2 := by
      rw [show d ++ '/' :: (b1 ++ '.' :: b2) = (d ++ ['/']) ++ (b1 ++ '.' :: b2) by simp,
        show d.length + 1 = (d ++ ['/']).length by simp, List.drop_left]
    simp only [splitext]
    rw [hsep, hdotIdx, hlen1]
    rw [if_pos (by push_cast; omega)]
    rw [hfi, hdn, hdrop]
    have htake : (b1 ++ '.' :: b2).take (d.length + 1 + b1.length - (d.length + 1))
        = b1 := by
      rw [show d.length + 1 + b1.length - (d.length + 1) = b1.length by omega,
        List.take_left]
    rw [htake, specExtension_with_dot h2]
    by_cases hall : ∀ x ∈ b1, x = '.'
    · rw [if_pos (by rw [List.all_eq_true]; intro x hx; simpa using hall x hx),
        if_pos hall]
    · rw [if_neg (fun hc => hall (fun x hx => by
          simpa using (List.all_eq_true.mp hc) x hx)), if_neg hall]
      rw [show d ++ '/' :: (b1 ++ '.' :: b2) = (d ++ '/' :: b1) ++ '.' :: b2 by simp]
      rw [show d.length + 1 + b1.length = (d ++ '/' :: b1).length by rw [hlen1],
        List.drop_left]
  · rw [specExtension_no_dot hdot]
    have hsep : rfind (d ++ '/' :: b) '/' = d.length := rfind_last hb
    by_cases hd : '.' ∈ d
    · obtain ⟨d1, d2, rfl, hd2⟩ := exists_last_occurrence hd
      have hnod : '.' ∉ d2 ++ '/' :: b := by
        intro hm
        rcases List.mem_append.mp hm with hm1 | hm1
        · exact hd2 hm1
        · rcases List.mem_cons.mp hm1 with hm2 | hm2
          · exact absurd hm2 (by decide)
          · exact hdot hm2
      have hdotIdx : rfind ((d1 ++ '.' :: d2) ++ '/' :: b) '.' = d1.length := by
        rw [show (d1 ++ '.' :: d2) ++ '/' :: b = d1 ++ '.' :: (d2 ++ '/' :: b) by simp]
        exact rfind_last hnod
      have hlen2 : (d1 ++ '.' :: d2).length = d1.length + 1 + d2.length := by
        simp [List.length_append]
        omega
      simp only [splitext]
      rw [hsep, hdotIdx, hlen2, if_neg (by push_cast; omega)]
    · have hnop : '.' ∉ d ++ '/' :: b := by
        intro hm
        rcases List.mem_append.mp hm with hm1 | hm1
        · exact hd hm1
        · rcases List.mem_cons.mp hm1 with hm2 | hm2
          · exact absurd hm2 (by decide)
          · exact hdot hm2
      have hdotIdx : rfind (d ++ '/' :: b) '.' = -1 := rfind_eq_neg_one hnop
      simp only [splitext]
      rw [hsep, hdotIdx, if_neg (by omega)]

theorem splitext_snd_no_slash (b : Str) (hb : '/' ∉ b) :
    (splitext b).2 = specExtension b := by
  have hsep : rfind b '/' = -1 := rfind_eq_neg_one hb
  by_cases hdot : '.' ∈ b
  · obtain ⟨b1, b2, rfl, h2⟩ := exists_last_occurrence hdot
    have hdotIdx : rfind (b1 ++ '.' :: b2) '.' = b1.length := rfind_last h2
    simp only [splitext]
    rw [hsep, hdotIdx, if_pos (by omega)]
    have h0 : ((-1 : Int) + 1).toNat = 0 := rfl
    have hdn : ((b1.length : Nat) : Int).toNat = b1.length := by omega
    rw [h0, hdn]
    simp only [List.drop_zero, Nat.sub_zero, List.take_left]
    rw [specExtension_with_dot h2]
    by_cases hall : ∀ x ∈ b1, x = '.'
    · rw [if_pos (by rw [List.all_eq_true]; intro x hx; simpa using hall x hx),
        if_pos hall]
    · rw [if_neg (fun hc => hall (fun x hx => by
          simpa using (List.all_eq_true.mp hc) x hx)), if_neg hall, List.drop_left]
  · rw [specExtension_no_dot hdot]
    have hdotIdx : rfind b '.' = -1 := rfind_eq_neg_one hdot
    simp only [splitext]
    rw [hsep, hdotIdx, if_neg (by omega)]

/-- C8 (counterexample): on the one-character path consisting of a single
slash, the file-type projection of the source yields OTHER, while the
claim as stated (the extension when present, otherwise the full basename)
yields the empty string, so the claim fails on this path. -/
theorem parse_filetype_counterexample :
    parse_filetype ['/'] = "OTHER".toList
    ∧ claimFiletype ['/'] = []
    ∧ ¬ parse_filetype ['/'] = claimFiletype ['/'] :=
  ⟨by decide, by decide, by decide⟩

/-- C8 (amended): for every path, the file-type projection produces the
star-prefixed extension when the final path component has one (a dot
preceded, within the component, by some earlier non-dot character), else
the full basename when it is nonempty, else the literal OTHER. -/
theorem parse_filetype_amended (p : Str) :
    parse_filetype p
      = if specExtension (basename p) ≠ [] then '*' :: specExtension (basename p)
        else if basename p ≠ [] then basename p else "OTHER".toList := by
  have hext : (splitext p).2 = specExtension (basename p) := by
    by_cases hs : '/' ∈ p
    · obtain ⟨d, b, rfl, hb⟩ := exists_last_occurrence hs
      rw [basename_decomp hb]
      exact splitext_snd_decomp d b hb
    · rw [basename_no_slash hs]
      exact splitext_snd_no_slash p hs
  simp only [parse_filetype]
  rw [hext]
  by_cases he : specExtension (basename p) = []
  · rw [he]
    simp
  · simp [he]

/-! ## Date display mode: swallowed key lookups -/

theorem lookupSeconds_addSeconds_self (d : Dict) (k : Str) (v : Nat) :
    (lookupSeconds (addSeconds d k v) k).isSome := by
  induction d with
  | nil => simp [addSeconds, lookupSeconds_cons]
  | cons kv rest ih =>
      rw [addSeconds_cons]
      by_cases h : kv.1 = k
      · rw [if_pos h, lookupSeconds_cons, if_pos h]
        rfl
      · rw [if_neg h, lookupSeconds_cons, if_neg h]
        exact ih

theorem lookupSeconds_addSeconds_mono (d : Dict) (k k2 : Str) (v : Nat)
    (h : (lookupSeconds d k).isSome) :
    (lookupSeconds (addSeconds d k2 v) k).isSome := by
  induction d with
  | nil => simp [lookupSeconds] at h
  | cons kv rest ih =>
      rw [addSeconds_cons]
      rw [lookupSeconds_cons] at h
      by_cases h2 : kv.1 = k2
      · rw [if_pos h2, lookupSeconds_cons]
        by_cases hk : kv.1 = k
        · rw [if_pos hk]
          rfl
        · rw [if_neg hk]
          rw [if_neg hk] at h
          exact h
      · rw [if_neg h2, lookupSeconds_cons]
        by_cases hk : kv.1 = k
        · rw [if_pos hk]
          rfl
        · rw [if_neg hk]
          rw [if_neg hk] at h
          exact ih h

theorem populate_date_noop_of_lookup_none (fname : Str)
    (c : Option (List (Str × Nat))) (d : Dict)
    (h : lookupSeconds (populate_database_dict fname c d .DATE)
        (parse_date fname) = none) :
    populate_database_dict fname c d .DATE = d := by
  cases c with
  | none => rfl
  | some data =>
      cases data with
      | nil => rfl
      | cons r rs =>
          exfalso
          have hsome : (lookupSeconds (populate_database_dict fname
              (some (r :: rs)) d .DATE) (parse_date fname)).isSome := by
            have hkey : ∀ (data2 : List (Str × Nat)) (d2 : Dict),
                (lookupSeconds d2 (parse_date fname)).isSome →
                (lookupSeconds (data2.foldl (fun d3 r2 => addSeconds d3
                  (projectKey .DATE fname r2.1) r2.2) d2) (parse_date fname)).isSome := by
              intro data2
              induction data2 with
              | nil => intro d2 hd2; exact hd2
              | cons r2 rs2 ih =>
                  intro d2 hd2
                  rw [List.foldl_cons]
                  exact ih _ (lookupSeconds_addSeconds_mono _ _ _ _ hd2)
            show (lookupSeconds ((r :: rs).foldl (fun d3 r2 => addSeconds d3
              (projectKey .DATE fname r2.1) r2.2) d) (parse_date fname)).isSome
            rw [List.foldl_cons]
            exact hkey rs _ (lookupSeconds_addSeconds_self d _ r.2)
          rw [h] at hsome
          exact Bool.false_ne_true hsome

/-- C9: in date display mode, a day whose date key is absent from the
dictionary right after that day's file is processed (for instance because
the daily log file is missing or empty) is silently skipped: it appends no
row, no error is raised (the embedding of the swallowed `KeyError` is the
row-less branch), and the rows of every other day are exactly those the
loop produces without that day. -/
theorem date_mode_missing_key_skipped
    (d0 : Dict) (rows0 : List (Str × Nat)) (pre suf : List ScannedFile)
    (f : ScannedFile)
    (h : lookupSeconds
        (populate_database_dict f.1 f.2 (buildDateRows pre (d0, rows0)).1 .DATE)
        (parse_date f.1) = none) :
    buildDateRows (pre ++ f :: suf) (d0, rows0)
      = buildDateRows (pre ++ suf) (d0, rows0) := by
  have hstep : dateRowsStep (buildDateRows pre (d0, rows0)) f
      = buildDateRows pre (d0, rows0) := by
    have hpop : populate_database_dict f.1 f.2
        (buildDateRows pre (d0, rows0)).1 .DATE = (buildDateRows pre (d0, rows0)).1 :=
      populate_date_noop_of_lookup_none f.1 f.2 _ h
    simp only [dateRowsStep]
    rw [h]
    dsimp only
    rw [hpop]
  have key : buildDateRows (pre ++ f :: suf) (d0, rows0)
      = buildDateRows suf (dateRowsStep (buildDateRows pre (d0, rows0)) f) := by
    unfold buildDateRows
    rw [List.foldl_append, List.foldl_cons]
  rw [key, hstep]
  unfold buildDateRows
  rw [List.foldl_append]

/-- Witness for C9: a missing day file between two present days appends no
row and leaves the other rows as if the day were not enumerated. -/
theorem date_mode_missing_key_skipped_witness :
    buildDateRows [("20170101.db".toList, none),
        ("20170102.db".toList, some [("/a".toList, 5)])] ([], [])
      = buildDateRows [("20170102.db".toList, some [("/a".toList, 5)])] ([], []) :=
  date_mode_missing_key_skipped [] [] []
    [("20170102.db".toList, some [("/a".toList, 5)])]
    ("20170101.db".toList, none) (by decide)

/-! ## Consistency-check lemmas -/

theorem tripleLookup_cons (x : JoinedEntry) (rest : List JoinedEntry) (k : Str) :
    tripleLookup (x :: rest) k
      = if x.1 = k then some x.2 else tripleLookup rest k := by
  by_cases h : x.1 = k
  · simp [tripleLookup, List.find?_cons, h]
  · have h2 : (x.1 == k) = false := by simpa using h
    simp [tripleLookup, List.find?_cons, h2, h]

theorem tripleLookup_updateFull_self (j : List JoinedEntry) (g1 : Str) (t : Nat)
    (y : Nat × Nat) (h : tripleLookup j g1 = some y) :
    tripleLookup (j.map (fun x => if x.1 == g1 then (x.1, x.2.1, t) else x)) g1
      = some (y.1, t) := by
  induction j with
  | nil => simp [tripleLookup] at h
  | cons x rest ih =>
      rw [tripleLookup_cons] at h
      rw [List.map_cons]
      by_cases hx : x.1 = g1
      · rw [if_pos hx] at h
        have hy : x.2 = y := Option.some.inj h
        rw [show (if (x.1 == g1) = true then (x.1, x.2.1, t) else x)
            = (x.1, x.2.1, t) from by simp [hx]]
        rw [tripleLookup_cons, if_pos hx, ← hy]
      · rw [if_neg hx] at h
        rw [show (if (x.1 == g1) = true then (x.1, x.2.1, t) else x) = x from by
          simp [hx]]
        rw [tripleLookup_cons, if_neg hx]
        exact ih h

theorem tripleLookup_updateFull_other (j : List JoinedEntry) (g1 : Str) (t : Nat)
    (k : Str) (h : k ≠ g1) :
    tripleLookup (j.map (fun x => if x.1 == g1 then (x.1, x.2.1, t) else x)) k
      = tripleLookup j k := by
  induction j with
  | nil => rfl
  | cons x rest ih =>
      rw [List.map_cons, tripleLookup_cons (x := x)]
      by_cases hx : x.1 = g1
      · have hxk : ¬ x.1 = k := fun hh => h (hh.symm.trans hx)
        rw [show (if (x.1 == g1) = true then (x.1, x.2.1, t) else x)
            = (x.1, x.2.1, t) from by simp [hx]]
        rw [tripleLookup_cons]
        simp only [if_neg hxk]
        exact ih
      · rw [show (if (x.1 == g1) = true then (x.1, x.2.1, t) else x) = x from by
          simp [hx]]
        rw [tripleLookup_cons]
        by_cases hxk : x.1 = k
        · rw [if_pos hxk, if_pos hxk]
        · rw [if_neg hxk, if_neg hxk, ih]

theorem tripleLookup_append_singleton (j : List JoinedEntry) (e : JoinedEntry)
    (k : Str) :
    tripleLookup (j ++ [e]) k
      = (tripleLookup j k).or (if e.1 = k then some e.2 else none) := by
  unfold tripleLookup
  rw [List.find?_append]
  by_cases h : e.1 = k
  · rw [show List.find? (fun x => x.1 == k) [e] = some e from by
      simp [List.find?_cons, h]]
    cases List.find? (fun x => x.1 == k) j <;> simp [Option.or, h]
  · have h2 : (e.1 == k) = false := by simpa using h
    rw [show List.find? (fun x => x.1 == k) [e] = none from by
      simp [List.find?_cons, h2]]
    cases List.find? (fun x => x.1 == k) j <;> simp [Option.or, h]

theorem tripleLookup_joinStep_self (j : List JoinedEntry) (g : Str × Nat) :
    tripleLookup (joinStep j g) g.1
      = some ((match tripleLookup j g.1 with
               | some y => y.1
               | none => 0), g.2) := by
  unfold joinStep
  cases hfind : j.find? (fun x => x.1 == g.1) with
  | some x =>
      have hx : tripleLookup j g.1 = some x.2 := by
        unfold tripleLookup
        rw [hfind]
        rfl
      rw [if_pos (by rfl)]
      rw [tripleLookup_updateFull_self j g.1 g.2 x.2 hx, hx]
  | none =>
      have hj : tripleLookup j g.1 = none := by
        unfold tripleLookup
        rw [hfind]
        rfl
      rw [if_neg (by simp)]
      rw [tripleLookup_append_singleton, hj]
      simp [Option.or]

theorem tripleLookup_joinStep_other (j : List JoinedEntry) (g : Str × Nat)
    (k : Str) (h : k ≠ g.1) :
    tripleLookup (joinStep j g) k = tripleLookup j k := by
  unfold joinStep
  by_cases hfind : (j.find? (fun x => x.1 == g.1)).isSome
  · rw [if_pos hfind]
    exact tripleLookup_updateFull_other j g.1 g.2 k h
  · rw [if_neg hfind, tripleLookup_append_singleton,
      if_neg (fun hh => h hh.symm)]
    cases tripleLookup j k <;> simp [Option.or]

theorem joinStep_keys (j : List JoinedEntry) (g : Str × Nat)
    (h : (j.map (fun x => x.1)).Nodup) :
    ((joinStep j g).map (fun x => x.1)).Nodup := by
  unfold joinStep
  by_cases hfind : (j.find? (fun x => x.1 == g.1)).isSome
  · rw [if_pos hfind]
    have hkeys : (j.map (fun x => if x.1 == g.1 then (x.1, x.2.1, g.2) else x)).map
        (fun x => x.1) = j.map (fun x => x.1) := by
      rw [List.map_map]
      apply List.map_congr_left
      intro x _
      by_cases hx : x.1 = g.1 <;> simp [hx]
    rw [hkeys]
    exact h
  · rw [if_neg hfind, List.map_append]
    have hnot : g.1 ∉ j.map (fun x => x.1) := by
      intro hm
      obtain ⟨x, hxj, hx1⟩ := List.mem_map.mp hm
      exact hfind (List.find?_isSome.mpr ⟨x, hxj, by simp [hx1]⟩)
    rw [List.nodup_append]
    refine ⟨h, by simp, ?_⟩
    intro a ha hb
    have : a = g.1 := by simpa using hb
    exact hnot (this ▸ ha)

theorem tripleLookup_joinTimes_aux (fs : List (Str × Nat)) (j : List JoinedEntry)
    (k : Str) (hfs : (fs.map (fun kv => kv.1)).Nodup) :
    tripleLookup (fs.foldl joinStep j) k
      = match tripleLookup j k, lookupSeconds fs k with
        | some y, some t => some (y.1, t)
        | some y, none => some y
        | none, some t => some (0, t)
        | none, none => none := by
  induction fs generalizing j with
  | nil =>
      rw [List.foldl_nil]
      cases tripleLookup j k <;> rfl
  | cons g gs ih =>
      rw [List.map_cons, List.nodup_cons] at hfs
      rw [List.foldl_cons, ih _ hfs.2, lookupSeconds_cons]
      by_cases hk : g.1 = k
      · subst hk
        rw [if_pos rfl, tripleLookup_joinStep_self]
        have hnone : lookupSeconds gs g.1 = none := by
          unfold lookupSeconds
          rw [List.find?_eq_none.mpr ?_]
          · rfl
          · intro x hx
            have : ¬ x.1 = g.1 := fun hh =>
              hfs.1 (List.mem_map.mpr ⟨x, hx, hh⟩)
            simpa using this
        rw [hnone]
        cases tripleLookup j g.1 <;> rfl
      · rw [if_neg hk, tripleLookup_joinStep_other j g k (fun hh => hk hh.symm)]

theorem seed_keys (by_date : Dict) :
    (by_date.map (fun kv => (kv.1, kv.2, 0))).map (fun x => x.1)
      = by_date.map (fun kv => kv.1) := by
  rw [List.map_map]
  apply List.map_congr_left
  intro kv _
  rfl

theorem tripleLookup_seed (by_date : Dict) (k : Str) :
    tripleLookup (by_date.map (fun kv => (kv.1, kv.2, 0))) k
      = (lookupSeconds by_date k).map (fun v => (v, 0)) := by
  induction by_date with
  | nil => rfl
  | cons kv rest ih =>
      rw [List.map_cons, tripleLookup_cons, lookupSeconds_cons]
      by_cases h : kv.1 = k
      · simp [h]
      · simp only [h, if_false]
        rw [ih]

theorem tripleLookup_joinTimes (by_date full : Dict) (k : Str)
    (hf : (full.map (fun kv => kv.1)).Nodup) :
    tripleLookup (joinTimes by_date full) k
      = match lookupSeconds by_date k, lookupSeconds full k with
        | some a, some t => some (a, t)
        | some a, none => some (a, 0)
        | none, some t => some (0, t)
        | none, none => none := by
  unfold joinTimes
  rw [tripleLookup_joinTimes_aux full _ k hf, tripleLookup_seed]
  cases lookupSeconds by_date k <;> cases lookupSeconds full k <;> rfl

theorem joinTimes_keys (by_date full : Dict)
    (hb : (by_date.map (fun kv => kv.1)).Nodup) :
    ((joinTimes by_date full).map (fun x => x.1)).Nodup := by
  unfold joinTimes
  have haux : ∀ (fs : List (Str × Nat)) (j : List JoinedEntry),
      (j.map (fun x => x.1)).Nodup →
      ((fs.foldl joinStep j).map (fun x => x.1)).Nodup := by
    intro fs
    induction fs with
    | nil => intro j h; exact h
    | cons g gs ih =>
        intro j h
        rw [List.foldl_cons]
        exact ih _ (joinStep_keys j g h)
  apply haux
  rw [seed_keys]
  exact hb

theorem lookupSeconds_isSome_iff (d : Dict) (k : Str) :
    (lookupSeconds d k).isSome = true ↔ k ∈ d.map (fun kv => kv.1) := by
  have hsome : (lookupSeconds d k).isSome
      = (d.find? (fun kv => kv.1 == k)).isSome := by
    unfold lookupSeconds
    cases d.find? (fun kv => kv.1 == k) <;> rfl
  rw [hsome, List.find?_isSome]
  constructor
  · rintro ⟨x, hx, hp⟩
    exact List.mem_map.mpr ⟨x, hx, by simpa using hp⟩
  · intro hm
    obtain ⟨x, hx, hx1⟩ := List.mem_map.mp hm
    exact ⟨x, hx, by simp [hx1]⟩

theorem mem_iff_tripleLookup (j : List JoinedEntry)
    (h : (j.map (fun x => x.1)).Nodup) (k : Str) (y : Nat × Nat) :
    (k, y) ∈ j ↔ tripleLookup j k = some y := by
  induction j with
  | nil => simp [tripleLookup]
  | cons x rest ih =>
      rw [List.map_cons, List.nodup_cons] at h
      rw [tripleLookup_cons, List.mem_cons]
      by_cases hx : x.1 = k
      · rw [if_pos hx]
        constructor
        · rintro (h1 | h1)
          · rw [← h1]
          · exact absurd (List.mem_map.mpr ⟨(k, y), h1, rfl⟩) (hx ▸ h.1)
        · intro h2
          left
          have hy : x.2 = y := Option.some.inj h2
          calc (k, y) = (x.1, x.2) := by rw [hx, hy]
            _ = x := rfl
      · rw [if_neg hx]
        constructor
        · rintro (h1 | h1)
          · exact absurd (congrArg Prod.fst h1).symm hx
          · exact (ih h.2).mp h1
        · intro h2
          exact Or.inr ((ih h.2).mpr h2)

theorem strLe_cons_cons (x y : Char) (xs ys : Str) :
    strLe (x :: xs) (y :: ys)
      = if x < y then true else if y < x then false else strLe xs ys := rfl

theorem strLe_total (a b : Str) : (strLe a b || strLe b a) = true := by
  induction a generalizing b with
  | nil => rfl
  | cons x xs ih =>
      cases b with
      | nil => rfl
      | cons y ys =>
          rw [strLe_cons_cons, strLe_cons_cons]
          by_cases hxy : x < y
          · rw [if_pos hxy]
            rfl
          · by_cases hyx : y < x
            · rw [if_neg hxy, if_pos hyx, if_pos hyx]
              rfl
            · rw [if_neg hxy, if_neg hyx, if_neg hyx, if_neg hxy]
              exact ih ys

theorem strLe_trans (a b c : Str) (h1 : strLe a b = true) (h2 : strLe b c = true) :
    strLe a c = true := by
  induction a generalizing b c with
  | nil => rfl
  | cons x xs ih =>
      cases b with
      | nil => simp [strLe] at h1
      | cons y ys =>
          cases c with
          | nil => simp [strLe] at h2
          | cons z zs =>
              rw [strLe_cons_cons] at h1 h2 ⊢
              by_cases hxy : x < y
              · by_cases hyz : y < z
                · rw [if_pos (lt_trans hxy hyz)]
                · by_cases hzy : z < y
                  · rw [if_neg hyz, if_pos hzy] at h2
                    exact absurd h2 (by simp)
                  · have hyz2 : y = z := le_antisymm (not_lt.mp hzy) (not_lt.mp hyz)
                    rw [if_pos (hyz2 ▸ hxy)]
              · by_cases hyx : y < x
                · rw [if_neg hxy, if_pos hyx] at h1
                  exact absurd h1 (by simp)
                · have hxy2 : x = y := le_antisymm (not_lt.mp hyx) (not_lt.mp hxy)
                  rw [if_neg hxy, if_neg hyx] at h1
                  subst hxy2
                  by_cases hxz : x < z
                  · rw [if_pos hxz]
                  · by_cases hzx : z < x
                    · rw [if_neg hxz, if_pos hzx] at h2
                      exact absurd h2 (by simp)
                    · rw [if_neg hxz, if_neg hzx] at h2 ⊢
                      exact ih ys zs h1 h2

/-- C4: given the by-date and full-database aggregations (whose key lists
are duplicate-free, as dictionaries built by `populate_database_dict`
are), the consistency check reports exactly the keys present in either
dictionary whose two totals differ, one (key, daySum, masterSum) entry per
such key with a key absent from one side read as zero there, with no
duplicated key, sorted by key, and the reported total drift equals the sum
of the absolute differences over the reported entries.  The embedding is a
pure function of the two dictionaries, so neither input is mutated. -/
theorem check_database_report (by_date full : Dict)
    (hb : (by_date.map (fun kv => kv.1)).Nodup)
    (hf : (full.map (fun kv => kv.1)).Nodup) :
    (∀ (k : Str) (a b2 : Nat),
      (k, a, b2) ∈ check_database_entries by_date full
        ↔ ((k ∈ by_date.map (fun kv => kv.1) ∨ k ∈ full.map (fun kv => kv.1))
            ∧ a = lookupSecondsD by_date k ∧ b2 = lookupSecondsD full k ∧ a ≠ b2))
    ∧ ((check_database_entries by_date full).map (fun x => x.1)).Nodup
    ∧ (check_database_entries by_date full).Pairwise
        (fun x y => strLe x.1 y.1 = true)
    ∧ check_database_total by_date full
      = ((check_database_entries by_date full).map
          (fun x => ((x.2.2 : Int) - (x.2.1 : Int)).natAbs)).sum := by
  refine ⟨?_, ?_, ?_, rfl⟩
  · intro k a b2
    have h1 : (k, a, b2) ∈ check_database_entries by_date full
        ↔ (k, a, b2) ∈ (joinTimes by_date full).filter
            (fun x => x.2.1 != x.2.2) := by
      unfold check_database_entries
      exact List.mem_mergeSort
    have h2 : (k, a, b2) ∈ (joinTimes by_date full).filter
          (fun x => x.2.1 != x.2.2)
        ↔ ((k, a, b2) ∈ joinTimes by_date full ∧ a ≠ b2) := by
      rw [List.mem_filter]
      simp [bne_iff_ne]
    have h3 : (k, a, b2) ∈ joinTimes by_date full
        ↔ tripleLookup (joinTimes by_date full) k = some (a, b2) :=
      mem_iff_tripleLookup _ (joinTimes_keys by_date full hb) k (a, b2)
    rw [h1, h2, h3, tripleLookup_joinTimes by_date full k hf]
    cases hbk : lookupSeconds by_date k with
    | none =>
        have hkb : ¬ k ∈ by_date.map (fun kv => kv.1) := fun hm => by
          simpa [hbk] using (lookupSeconds_isSome_iff by_date k).mpr hm
        cases hfk : lookupSeconds full k with
        | none =>
            have hkf : ¬ k ∈ full.map (fun kv => kv.1) := fun hm => by
              simpa [hfk] using (lookupSeconds_isSome_iff full k).mpr hm
            simp [hkb, hkf]
        | some t =>
            have hkf : k ∈ full.map (fun kv => kv.1) :=
              (lookupSeconds_isSome_iff full k).mp (by rw [hfk]; rfl)
            have hda : lookupSecondsD by_date k = 0 := by
              simp [lookupSecondsD, hbk]
            have hdb : lookupSecondsD full k = t := by
              simp [lookupSecondsD, hfk]
            rw [hda, hdb]
            constructor
            · rintro ⟨hh, hne⟩
              have hpair := Option.some.inj hh
              exact ⟨Or.inr hkf, (congrArg Prod.fst hpair).symm,
                (congrArg (fun q => q.2) hpair).symm, hne⟩
            · rintro ⟨_, ha, hb2z, hne⟩
              subst ha
              subst hb2z
              exact ⟨rfl, hne⟩
    | some v =>
        have hkb : k ∈ by_date.map (fun kv => kv.1) :=
          (lookupSeconds_isSome_iff by_date k).mp (by rw [hbk]; rfl)
        have hda : lookupSecondsD by_date k = v := by
          simp [lookupSecondsD, hbk]
        cases hfk : lookupSeconds full k with
        | none =>
            have hdb : lookupSecondsD full k = 0 := by
              simp [lookupSecondsD, hfk]
            rw [hda, hdb]
            constructor
            · rintro ⟨hh, hne⟩
              have hpair := Option.some.inj hh
              exact ⟨Or.inl hkb, (congrArg Prod.fst hpair).symm,
                (congrArg (fun q => q.2) hpair).symm, hne⟩
            · rintro ⟨_, ha, hb2z, hne⟩
              subst ha
              subst hb2z
              exact ⟨rfl, hne⟩
        | some t =>
            have hdb : lookupSecondsD full k = t := by
              simp [lookupSecondsD, hfk]
            rw [hda, hdb]
            constructor
            · rintro ⟨hh, hne⟩
              have hpair := Option.some.inj hh
              exact ⟨Or.inl hkb, (congrArg Prod.fst hpair).symm,
                (congrArg (fun q => q.2) hpair).symm, hne⟩
            · rintro ⟨_, ha, hb2z, hne⟩
              subst ha
              subst hb2z
              exact ⟨rfl, hne⟩
  · have hperm : (check_database_entries by_date full).Perm
        ((joinTimes by_date full).filter (fun x => x.2.1 != x.2.2)) := by
      unfold check_database_entries
      exact List.mergeSort_perm _ _
    have hkeysfil : (((joinTimes by_date full).filter
        (fun x => x.2.1 != x.2.2)).map (fun x => x.1)).Nodup :=
      List.Nodup.sublist (List.Sublist.map _ (List.filter_sublist _))
        (joinTimes_keys by_date full hb)
    exact (hperm.map (fun x => x.1)).nodup_iff.mpr hkeysfil
  · unfold check_database_entries
    exact List.sorted_mergeSort
      (fun x y z hxy hyz => strLe_trans x.1 y.1 z.1 hxy hyz)
      (fun x y => strLe_total x.1 y.1) _

/-- Witness for C4 at two concrete aggregations. -/
theorem check_database_report_witness :
    (check_database_entries [(['a'], 1), (['b'], 2)] [(['a'], 1), (['c'], 3)]).Pairwise
        (fun x y => strLe x.1 y.1 = true)
    ∧ ((['b'], 2, 0) ∈ check_database_entries [(['a'], 1), (['b'], 2)]
        [(['a'], 1), (['c'], 3)]
      ↔ (((['b'] : Str) ∈ [(['a'], 1), (['b'], 2)].map
            (fun kv : Str × Nat => kv.1)
          ∨ (['b'] : Str) ∈ [(['a'], 1), (['c'], 3)].map
            (fun kv : Str × Nat => kv.1))
        ∧ 2 = lookupSecondsD [(['a'], 1), (['b'], 2)] ['b']
        ∧ 0 = lookupSecondsD [(['a'], 1), (['c'], 3)] ['b'] ∧ 2 ≠ 0)) :=
  ⟨(check_database_report [(['a'], 1), (['b'], 2)] [(['a'], 1), (['c'], 3)]
      (by decide) (by decide)).2.2.1,
   (check_database_report [(['a'], 1), (['b'], 2)] [(['a'], 1), (['c'], 3)]
      (by decide) (by decide)).1 ['b'] 2 0⟩

end VimTimeTap
